import Mathlib

/-!
Verification development for the QuPDE quadratization engine.

The PDE system is embedded at the ring level: after `PDESys.build_ring` has
substituted spatial derivatives by named ring generators, every right-hand
side is a multivariate polynomial over the fraction field of the constants.
We model ring elements as lists of (exponent vector, rational coefficient)
pairs kept in strictly increasing lexicographic monomial order, mirroring the
canonical representation used by the sympy sparse polynomial ring.

Definitions translated from files absent from the source snapshot
(`utils.py`, `verify_quad.py`, `fraction_decomp.py`, `search_quad.py`,
`mon_heuristics.py`) carry a doc comment starting with `Modelled from the
spec:`; everything else is translated from `qupde/pde_sys.py` and
`qupde/quadratization.py`.
-/

/-- Symbol names are modelled as lists of characters
(`str(x)[0]` in the source becomes `List.headD`). -/
abbrev VName := List Char

/-- A monomial is an exponent vector over the ring generators; a missing
tail entry stands for exponent 0. -/
abbrev QMon := List ℕ

/-- A ring element: terms (monomial, coefficient); canonical form is
strictly increasing in `monLtB` with nonzero coefficients. -/
abbrev QPoly := List (QMon × ℚ)

/-- Product of rational coefficients, written through `Rat.normalize` so the
kernel can evaluate it on concrete inputs. -/
def qmul (a b : ℚ) : ℚ :=
  Rat.normalize (a.num * b.num) (a.den * b.den)
    (Nat.mul_ne_zero (Nat.pos_iff_ne_zero.mp a.pos) (Nat.pos_iff_ne_zero.mp b.pos))

theorem qmul_eq (a b : ℚ) : qmul a b = a * b := by
  unfold qmul
  rw [Rat.normalize_eq_mkRat, Rat.mkRat_eq_div]
  push_cast
  rw [← div_mul_div_comm, Rat.num_div_den, Rat.num_div_den]

/-- Sum of rational coefficients, kernel-evaluable. -/
def qadd (a b : ℚ) : ℚ :=
  Rat.normalize (a.num * b.den + b.num * a.den) (a.den * b.den)
    (Nat.mul_ne_zero (Nat.pos_iff_ne_zero.mp a.pos) (Nat.pos_iff_ne_zero.mp b.pos))

theorem qadd_eq (a b : ℚ) : qadd a b = a + b := by
  unfold qadd
  rw [Rat.normalize_eq_mkRat, Rat.mkRat_eq_div]
  have ha : ((a.den : ℚ)) ≠ 0 := by
    exact_mod_cast Nat.pos_iff_ne_zero.mp a.pos
  have hb : ((b.den : ℚ)) ≠ 0 := by
    exact_mod_cast Nat.pos_iff_ne_zero.mp b.pos
  conv_rhs => rw [← Rat.num_div_den a, ← Rat.num_div_den b]
  rw [div_add_div _ _ ha hb]
  push_cast
  ring_nf

/-- Negation of a rational coefficient, kernel-evaluable. -/
def qneg (a : ℚ) : ℚ :=
  Rat.normalize (-a.num) a.den (Nat.pos_iff_ne_zero.mp a.pos)

theorem qneg_eq (a : ℚ) : qneg a = -a := by
  unfold qneg
  rw [Rat.normalize_eq_mkRat, Rat.mkRat_eq_div]
  push_cast
  rw [neg_div, Rat.num_div_den]

/-- Multiplicative inverse of a rational coefficient, kernel-evaluable. -/
def qinv (a : ℚ) : ℚ :=
  if h : a.num.natAbs = 0 then 0
  else Rat.normalize (Int.sign a.num * a.den) a.num.natAbs h

theorem qinv_eq (a : ℚ) : qinv a = a⁻¹ := by
  unfold qinv
  by_cases h : a.num.natAbs = 0
  · have h0 : a = 0 := by
      have : a.num = 0 := Int.natAbs_eq_zero.mp h
      exact Rat.zero_iff_num_zero.mpr this
    rw [dif_pos h, h0]
    simp
  · rw [dif_neg h]
    have hnum : a.num ≠ 0 := fun hc => h (by simp [hc])
    have hs : a.num.sign * a.num = (a.num.natAbs : ℤ) := by
      rcases lt_trichotomy a.num 0 with hl | hl | hl
      · rw [Int.sign_eq_neg_one_of_neg hl]; omega
      · exact absurd hl hnum
      · rw [Int.sign_eq_one_of_pos hl]; omega
    have kInt : (a.num.sign * (a.den : ℤ)) * a.num =
        (a.den : ℤ) * (a.num.natAbs : ℤ) := by
      linear_combination (a.den : ℤ) * hs
    rw [Rat.normalize_eq_mkRat, Rat.mkRat_eq_div]
    have hnq : ((a.num : ℚ)) ≠ 0 := by exact_mod_cast hnum
    have hna : ((a.num.natAbs : ℚ)) ≠ 0 := by exact_mod_cast h
    have hinv : a⁻¹ = (a.den : ℚ) / (a.num : ℚ) := by
      conv_lhs => rw [← Rat.num_div_den a]
      rw [inv_div]
    rw [hinv, div_eq_div_iff hna hnq]
    have kQ := congrArg (fun z : ℤ => ((z : ℚ))) kInt
    push_cast [Int.cast_natAbs] at kQ ⊢
    linarith [kQ]

/-- Power of a rational coefficient, kernel-evaluable. -/
def qpow (a : ℚ) : ℕ → ℚ
  | 0 => 1
  | n + 1 => qmul a (qpow a n)

theorem qpow_eq (a : ℚ) : ∀ n, qpow a n = a ^ n := by
  intro n
  induction n with
  | zero => simp [qpow]
  | succ k ih => rw [qpow, qmul_eq, ih, pow_succ, mul_comm]

/-- Lexicographic strict order on exponent vectors (the monomial order of
the underlying ring). -/
def monLtB : QMon → QMon → Bool
  | [], [] => false
  | [], _ :: _ => true
  | _ :: _, [] => false
  | a :: as, b :: bs => if a < b then true else if b < a then false else monLtB as bs

/-- Product of monomials: componentwise sum of exponent vectors. -/
def monMul : QMon → QMon → QMon
  | [], ys => ys
  | xs, [] => xs
  | x :: xs, y :: ys => (x + y) :: monMul xs ys

/-- Total degree of a monomial. -/
def monDeg (m : QMon) : ℕ := m.sum

/-- Inner loop of the sorted merge: `f` is the already-built merge of the
tail `p` with an arbitrary right argument. -/
def addPolyGo (m1 : QMon) (c1 : ℚ) (p : QPoly) (f : QPoly → QPoly) : QPoly → QPoly
  | [] => (m1, c1) :: p
  | (m2, c2) :: q =>
    if monLtB m1 m2 then (m1, c1) :: f ((m2, c2) :: q)
    else if monLtB m2 m1 then (m2, c2) :: addPolyGo m1 c1 p f q
    else if qadd c1 c2 = 0 then f q
    else (m1, qadd c1 c2) :: f q

/-- Sum of two ring elements by sorted merge of term lists. -/
def addPoly : QPoly → QPoly → QPoly
  | [], q => q
  | (m1, c1) :: p, q => addPolyGo m1 c1 p (addPoly p) q

theorem addPoly_cons_cons (m1 : QMon) (c1 : ℚ) (p : QPoly) (m2 : QMon)
    (c2 : ℚ) (q : QPoly) :
    addPoly ((m1, c1) :: p) ((m2, c2) :: q) =
      if monLtB m1 m2 then (m1, c1) :: addPoly p ((m2, c2) :: q)
      else if monLtB m2 m1 then (m2, c2) :: addPoly ((m1, c1) :: p) q
      else if qadd c1 c2 = 0 then addPoly p q
      else (m1, qadd c1 c2) :: addPoly p q := rfl

/-- Scalar multiple of a ring element. -/
def scalePoly (c : ℚ) (p : QPoly) : QPoly :=
  if c = 0 then [] else p.map (fun t => (t.1, qmul c t.2))

/-- Additive inverse. -/
def polyNeg (p : QPoly) : QPoly := scalePoly (qneg 1) p

/-- The ring element consisting of the single monomial `m`. -/
def monPoly (m : QMon) : QPoly := [(m, 1)]

/-- The multiplicative identity of the ring. -/
def polyOne : QPoly := [([], 1)]

/-- The ring generator of index `i`. -/
def varPoly (i : ℕ) : QPoly := [(List.replicate i 0 ++ [1], 1)]

/-- Product with a single term. -/
def mulTerm (m : QMon) (c : ℚ) (q : QPoly) : QPoly :=
  q.map (fun t => (monMul m t.1, qmul c t.2))

/-- Product of two ring elements. -/
def mulPoly (p q : QPoly) : QPoly :=
  p.foldr (fun t acc => addPoly (mulTerm t.1 t.2 q) acc) []

/-- Canonical-form check: strictly increasing monomials, nonzero
coefficients. -/
def polyCanon : QPoly → Bool
  | [] => true
  | [(_, c)] => c ≠ 0
  | (m1, c1) :: (m2, c2) :: rest =>
    c1 ≠ 0 && monLtB m1 m2 && polyCanon ((m2, c2) :: rest)

/-- Evaluation of a monomial under a valuation, with `i` the index of the
first exponent entry. -/
def evalMonFrom (v : ℕ → ℚ) : ℕ → QMon → ℚ
  | _, [] => 1
  | i, e :: rest => qmul (qpow (v i) e) (evalMonFrom v (i + 1) rest)

/-- Evaluation of a ring element under a valuation of the generators. -/
def evalPoly (p : QPoly) (v : ℕ → ℚ) : ℚ :=
  p.foldr (fun t acc => qadd (qmul t.2 (evalMonFrom v 0 t.1)) acc) 0

/-- Whether generator `i` occurs in the monomial. -/
def monUses (m : QMon) (i : ℕ) : Bool := m.getD i 0 ≠ 0

/-- Whether generator `i` occurs in the ring element. -/
def polyUses (p : QPoly) (i : ℕ) : Bool := p.any (fun t => monUses t.1 i)

/-- A derivative dictionary: generator index to the ring element that is its
derivative (`None` = not a key, differentiates to zero). -/
abbrev Dict := ℕ → Option QPoly

/-- Python dictionary assignment `d[k] = v`. -/
def dset (d : Dict) (k : ℕ) (v : QPoly) : Dict :=
  fun x => if x = k then some v else d x

/-- Python dictionary read `d[k]` (zero when absent; the source's control
flow only reads present keys). -/
def dget (d : Dict) (k : ℕ) : QPoly := (d k).getD []

/-- Monomial `m` with the exponent of generator `i` decremented. -/
def decMon : QMon → ℕ → QMon
  | [], _ => []
  | e :: r, 0 => (e - 1) :: r
  | e :: r, i + 1 => e :: decMon r i

/-- Modelled from the spec: `utils.py` is absent from the snapshot; §4.2
gives the derivative of a monomial `∏ v_i^{e_i}` as
`Σ_i e_i * v_i^{e_i-1} * (∏_{j≠i} v_j^{e_j}) * map[v_i]`, with any
generator absent from the map differentiating to zero. -/
def diffMon (m : QMon) (dmap : Dict) : QPoly :=
  (List.range m.length).foldr
    (fun i acc =>
      let e := m.getD i 0
      if e = 0 then acc
      else
        match dmap i with
        | none => acc
        | some d => addPoly (scalePoly (e : ℚ) (mulPoly (monPoly (decMon m i)) d)) acc)
    []

/-- Modelled from the spec: single differentiation step of a ring element,
extended linearly over its terms (§4.2 generalized product/sum rule). -/
def diffOnce (p : QPoly) (dmap : Dict) : QPoly :=
  p.foldr (fun t acc => addPoly (scalePoly t.2 (diffMon t.1 dmap)) acc) []

/-- Modelled from the spec: `diff_dict(expr, derivative_map, order)` from the
absent `utils.py`, the `order`-th derivative of a ring element with respect
to the variable implied by the map (§4.2). -/
def diff_dict (p : QPoly) (dmap : Dict) : ℕ → QPoly
  | 0 => p
  | n + 1 => diff_dict (diffOnce p dmap) dmap n

theorem diff_dict_zero (p : QPoly) (dmap : Dict) : diff_dict p dmap 0 = p := rfl

theorem diff_dict_succ (p : QPoly) (dmap : Dict) (n : ℕ) :
    diff_dict p dmap (n + 1) = diff_dict (diffOnce p dmap) dmap n := rfl

/-- Claim C5: for every ring element `e` and derivative map `m`,
`diff_dict(e, m, 0) == e` (order 0 returns the expression unchanged) and
differentiation composes:
`diff_dict(diff_dict(e, m, 1), m, 1) == diff_dict(e, m, 2)`. -/
theorem diff_dict_order_zero_and_compose :
    ∀ (e : QPoly) (m : Dict),
      diff_dict e m 0 = e ∧
      diff_dict (diff_dict e m 1) m 1 = diff_dict e m 2 := by
  intro e m
  exact ⟨rfl, rfl⟩

/-- A fraction-decomposition relation: the reciprocal symbol `q_i`, its ring
generator index, and the denominator polynomial it inverts.  Modelled from
the spec: `fraction_decomp.py` is absent from the snapshot; §4.1 specifies
a list of `(reciprocal_symbol, denominator_poly)` relations. -/
structure FracRel where
  qVName : VName
  qIdx : ℕ
  denom : QPoly
deriving DecidableEq

/-- Modelled from the spec: `FractionDecomp.diff_frac` differentiates a
relation using `d(1/q)/dv = -(1/q)^2 * dq/dv`, rewritten back into ring
elements through the reciprocal generator (§4.1(c)). -/
def diffFrac (r : FracRel) (dmap : Dict) : QPoly :=
  polyNeg (mulPoly (mulPoly (varPoly r.qIdx) (varPoly r.qIdx)) (diffOnce r.denom dmap))

/-- Modelled from the spec: the `n_diff`-fold derivative of a fraction
relation (`diff_frac(rel, dic, n_diff=i)`). -/
def diffFracN (r : FracRel) (dmap : Dict) : ℕ → QPoly
  | 0 => varPoly r.qIdx
  | 1 => diffFrac r dmap
  | n + 2 => diffOnce (diffFracN r dmap (n + 1)) dmap

/-- A quadratic form over the extended variable set `V`: summands
`c * V[i] * V[j]` given by coefficient and the two `V` indices. -/
abbrev QForm := List (ℚ × ℕ × ℕ)

/-- The ring-level state of a `PDESys` (`qupde/pde_sys.py`): generator
names, equations `(lhs symbol, rhs polynomial)`, fraction relations
(`new_vars["frac_vars"]`), polynomial auxiliary variables
(`new_vars["new_vars"]`), residue list, quadratic system, and the two
derivative dictionaries with the stored fraction time-derivatives. -/
structure PDESysM where
  polyVarNames : List VName
  pdeEq : List (VName × QPoly)
  fracRels : List FracRel
  newVars : List QPoly
  NSList : List (VName × QPoly)
  quadSys : List (VName × QForm)
  dicT : Dict
  dicX : Dict
  fracDerT : List (VName × QPoly)
  varOrder : ℕ → ℕ
  order : ℕ

/-- The generated name `w_{i}` for the `i`-th polynomial auxiliary
variable. -/
def wVName (i : ℕ) : VName := ['w', '_'] ++ Nat.toDigits 10 i

/-- Modelled from the spec: `utils.get_diff_order`, the largest spatial
derivative order among the generators occurring in the monomial (the order
of each generator is recorded in `varOrder`). -/
def monMaxOrder (vo : ℕ → ℕ) (m : QMon) : ℕ :=
  (List.range m.length).foldr
    (fun i acc => if m.getD i 0 ≠ 0 then max (vo i) acc else acc) 0

/-- Modelled from the spec: largest spatial derivative order among the
generators of a ring element. -/
def getDiffOrder (vo : ℕ → ℕ) (p : QPoly) : ℕ :=
  p.foldr (fun t acc => max (monMaxOrder vo t.1) acc) 0

/-- `PDESys.differentiate_dict`: the time-derivative list of the named new
variables, and the spatial-derivative lists of the new variables and of the
fraction relations up to `order - get_diff_order(expr)`. -/
def differentiateDict (s : PDESysM) (nv : List (VName × QPoly)) :
    List (VName × QPoly) × List (VName × QPoly) :=
  let dT := nv.map (fun p => (p.1 ++ ['t'], diff_dict p.2 s.dicT 1))
  let dXnew := nv.flatMap (fun p =>
    let vord := s.order - getDiffOrder s.varOrder p.2
    (List.range vord).map
      (fun i => (p.1 ++ ['x'] ++ Nat.toDigits 10 (i + 1), diff_dict p.2 s.dicX (i + 1))))
  let dXfrac := s.fracRels.flatMap (fun r =>
    let vord := s.order - getDiffOrder s.varOrder r.denom
    (List.range vord).map
      (fun i => (r.qVName ++ ['x'] ++ Nat.toDigits 10 (i + 1), diffFracN r s.dicX (i + 1))))
  (dT, dXnew ++ dXfrac)

/-- The new variables paired with their generated `w_{i}` names
(`PDESys.try_make_quadratic`, line 406). -/
def newVarsNamedOf (s : PDESysM) : List (VName × QPoly) :=
  s.newVars.enum.map (fun p => (wVName p.1, p.2))

/-- The list of time-derivative expressions the verifier must rewrite:
`deriv_t = new_vars_t + self.frac_der_t + self.pde_eq`
(`PDESys.try_make_quadratic`, line 411). -/
def derivTOf (s : PDESysM) : List (VName × QPoly) :=
  (differentiateDict s (newVarsNamedOf s)).1 ++ s.fracDerT ++ s.pdeEq

/-- The extended variable set `V` of `PDESys.try_make_quadratic`
(lines 412-419): the constant 1, the ring generators whose printed name
does not begin with `q`, the fraction reciprocal generators re-added, the
named auxiliary variables and their spatial derivatives. -/
def buildV (s : PDESysM) (nvNamed nvX : List (VName × QPoly)) :
    List (VName × QPoly) :=
  (['1'], polyOne) ::
    (s.polyVarNames.enum.filter (fun p => p.2.headD ' ' ≠ 'q')).map
      (fun p => (p.2, varPoly p.1))
    ++ s.fracRels.map (fun r => (r.qVName, varPoly r.qIdx))
    ++ nvNamed ++ nvX

/-- The extended variable set computed by `try_make_quadratic` on state
`s`. -/
def vSetOf (s : PDESysM) : List (VName × QPoly) :=
  buildV s (newVarsNamedOf s) (differentiateDict s (newVarsNamedOf s)).2

/-- The expression of the `i`-th element of `V`. -/
def getVExpr (V : List (VName × QPoly)) (i : ℕ) : QPoly :=
  (V.getD i ([], [])).2

/-- All ordered pairs of enumerated elements of `V`, the degree-1 matches
(products with the leading constant-1 entry) coming first. -/
def vPairs (V : List (VName × QPoly)) :
    List ((ℕ × VName × QPoly) × (ℕ × VName × QPoly)) :=
  V.enum.flatMap (fun p => V.enum.map (fun q => (p, q)))

/-- Modelled from the spec: `verify_quad.py` is absent from the snapshot;
§4.5 matches a monomial to a product of at most two elements of `V`
(single-variable matches preferred, any valid two-factor decomposition
acceptable). -/
def findDecomp (V : List (VName × QPoly)) (m : QMon) : Option (ℕ × ℕ) :=
  ((vPairs V).find? (fun pq => decide (mulPoly pq.1.2.2 pq.2.2.2 = monPoly m))).map
    (fun pq => (pq.1.1, pq.2.1))

/-- Modelled from the spec: rewrite a ring element as a degree-≤2 polynomial
in `V` by matching every monomial; `none` when some monomial has no
decomposition (§4.5). -/
def matchPoly (V : List (VName × QPoly)) : QPoly → Option QForm
  | [] => some []
  | (m, c) :: rest =>
    match findDecomp V m, matchPoly V rest with
    | some (i, j), some q => some ((c, i, j) :: q)
    | _, _ => none

/-- The part of a ring element whose monomials admit no quadratic match: the
residual (original minus best quadratic match). -/
def residualPoly (V : List (VName × QPoly)) (p : QPoly) : QPoly :=
  p.filter (fun t => (findDecomp V t.1).isNone)

/-- The part of a ring element whose monomials admit a quadratic match. -/
def matchedPoly (V : List (VName × QPoly)) (p : QPoly) : QPoly :=
  p.filter (fun t => (findDecomp V t.1).isSome)

/-- Result of the quadratization verifier: `(True, quad_sys)` or
`(False, NS_list)`. -/
inductive QuadResult where
  | quad (sys : List (VName × QForm))
  | residues (ns : List (VName × QPoly))
deriving DecidableEq

/-- The boolean first component of the verifier's returned pair. -/
def QuadResult.fst : QuadResult → Bool
  | .quad _ => true
  | .residues _ => false

/-- Modelled from the spec: `is_quadratization(V, deriv_t, frac_decomp)`
from the absent `verify_quad.py` (§4.5): succeed with the rewritten
equations when every expression matches, otherwise return the
`(equation_symbol, residual_poly)` pairs. -/
def isQuadratization (V : List (VName × QPoly)) (dT : List (VName × QPoly)) :
    QuadResult :=
  if dT.all (fun sp => (matchPoly V sp.2).isSome) then
    .quad (dT.map (fun sp => (sp.1, (matchPoly V sp.2).getD [])))
  else
    .residues ((dT.filter (fun sp => !(matchPoly V sp.2).isSome)).map
      (fun sp => (sp.1, residualPoly V sp.2)))

/-- `PDESys.try_make_quadratic` (lines 397-424), value part: build the named
new variables, their derivatives, `deriv_t` and `V`, and run the
verifier. -/
def tryMakeQuadratic (s : PDESysM) : QuadResult :=
  isQuadratization (vSetOf s) (derivTOf s)

/-- `PDESys.try_make_quadratic`, state effect: the residue list is assigned
only when the verifier fails (`if not result[0]: self.NS_list = result[1]`,
lines 422-423). -/
def tmqState (s : PDESysM) : PDESysM × QuadResult :=
  match tryMakeQuadratic s with
  | .quad qs => (s, .quad qs)
  | .residues ns => ({ s with NSList := ns }, .residues ns)

/-- `PDESys.set_new_vars`. -/
def setNewVarsS (s : PDESysM) (l : List QPoly) : PDESysM :=
  { s with newVars := l }

/-- `PDESys.set_NS_list`. -/
def setNSListS (s : PDESysM) (l : List (VName × QPoly)) : PDESysM :=
  { s with NSList := l }

/-- `PDESys.set_quad_sys`. -/
def setQuadSysS (s : PDESysM) (l : List (VName × QForm)) : PDESysM :=
  { s with quadSys := l }

/-- `check_quadratization(func_eq, new_vars, n_diff, first_indep)`
(`qupde/quadratization.py`, lines 123-154): construct the system with the
candidate variables and return `try_make_quadratic()`, no search. -/
def checkQuadratization (s : PDESysM) (newVars : List QPoly) : QuadResult :=
  tryMakeQuadratic (setNewVarsS s newVars)

/-- Substitute the auxiliary-variable definitions back into a quadratic
form: each summand `c * V[i] * V[j]` becomes `c` times the product of the
defining expressions of `V[i]` and `V[j]`. -/
def substQF (V : List (VName × QPoly)) (q : QForm) : QPoly :=
  q.foldr
    (fun t acc => addPoly (scalePoly t.1 (mulPoly (getVExpr V t.2.1) (getVExpr V t.2.2))) acc)
    []

theorem monLtB_trans :
    ∀ a b c : QMon, monLtB a b = true → monLtB b c = true → monLtB a c = true := by
  intro a
  induction a with
  | nil =>
    intro b c hab hbc
    cases b with
    | nil => simp [monLtB] at hab
    | cons y ys =>
      cases c with
      | nil => simp [monLtB] at hbc
      | cons z zs => simp [monLtB]
  | cons x xs ih =>
    intro b c hab hbc
    cases b with
    | nil => simp [monLtB] at hab
    | cons y ys =>
      cases c with
      | nil => simp [monLtB] at hbc
      | cons z zs =>
        simp only [monLtB] at hab hbc ⊢
        rcases Nat.lt_trichotomy x y with h1 | h1 | h1
        · rcases Nat.lt_trichotomy y z with h2 | h2 | h2
          · simp [Nat.lt_trans h1 h2]
          · subst h2; simp [h1]
          · rw [if_neg (Nat.lt_asymm h2), if_pos h2] at hbc
            exact absurd hbc (by simp)
        · subst h1
          rw [if_neg (Nat.lt_irrefl x), if_neg (Nat.lt_irrefl x)] at hab
          rcases Nat.lt_trichotomy x z with h2 | h2 | h2
          · simp [h2]
          · subst h2
            rw [if_neg (Nat.lt_irrefl x), if_neg (Nat.lt_irrefl x)] at hbc ⊢
            exact ih ys zs hab hbc
          · rw [if_neg (Nat.lt_asymm h2), if_pos h2] at hbc
            exact absurd hbc (by simp)
        · rw [if_neg (Nat.lt_asymm h1), if_pos h1] at hab
          exact absurd hab (by simp)

theorem monLtB_asymm :
    ∀ a b : QMon, monLtB a b = true → monLtB b a = false := by
  intro a
  induction a with
  | nil =>
    intro b hab
    cases b with
    | nil => simp [monLtB] at hab
    | cons y ys => simp [monLtB]
  | cons x xs ih =>
    intro b hab
    cases b with
    | nil => simp [monLtB] at hab
    | cons y ys =>
      simp only [monLtB] at hab ⊢
      rcases Nat.lt_trichotomy x y with h1 | h1 | h1
      · rw [if_neg (Nat.lt_asymm h1), if_pos h1]
      · subst h1
        rw [if_neg (Nat.lt_irrefl x)] at hab ⊢
        rw [if_neg (Nat.lt_irrefl x)] at hab ⊢
        exact ih ys hab
      · rw [if_neg (Nat.lt_asymm h1), if_pos h1] at hab
        exact absurd hab (by simp)

theorem polyCanon_tail (t : QMon × ℚ) (rest : QPoly) :
    polyCanon (t :: rest) = true → polyCanon rest = true := by
  cases t with
  | mk m c =>
    cases rest with
    | nil => intro; rfl
    | cons t2 r2 =>
      cases t2 with
      | mk m2 c2 =>
        intro h
        simp only [polyCanon, Bool.and_eq_true] at h
        exact h.2

theorem polyCanon_coeff (m : QMon) (c : ℚ) (rest : QPoly) :
    polyCanon ((m, c) :: rest) = true → c ≠ 0 := by
  cases rest with
  | nil => simp [polyCanon]
  | cons t2 r2 =>
    intro h
    simp only [polyCanon, Bool.and_eq_true] at h
    simpa using h.1.1

theorem polyCanon_head_lt :
    ∀ (rest : QPoly) (m : QMon) (c : ℚ), polyCanon ((m, c) :: rest) = true →
      ∀ t ∈ rest, monLtB m t.1 = true := by
  intro rest
  induction rest with
  | nil => intro m c _ t ht; simp at ht
  | cons t2 r2 ih =>
    intro m c h t ht
    cases t2 with
    | mk m2 c2 =>
      have h2 : monLtB m m2 = true := by
        simp only [polyCanon, Bool.and_eq_true] at h
        exact h.1.2
      rcases List.mem_cons.mp ht with rfl | ht2
      · exact h2
      · have hc2 : polyCanon ((m2, c2) :: r2) = true := polyCanon_tail _ _ h
        exact monLtB_trans _ _ _ h2 (ih m2 c2 hc2 t ht2)

theorem addPoly_nil_left (q : QPoly) : addPoly [] q = q := rfl

theorem addPoly_nil_right (p : QPoly) : addPoly p [] = p := by
  cases p with
  | nil => rfl
  | cons t p2 => cases t with | mk m c => rfl

theorem addPoly_cons_left (m : QMon) (c : ℚ) (A B : QPoly)
    (h : ∀ t ∈ B, monLtB m t.1 = true) :
    addPoly ((m, c) :: A) B = (m, c) :: addPoly A B := by
  cases B with
  | nil => rw [addPoly_nil_right, addPoly_nil_right]
  | cons t2 B2 =>
    cases t2 with
    | mk m2 c2 =>
      have h2 : monLtB m m2 = true := h (m2, c2) (List.mem_cons_self _ _)
      rw [addPoly_cons_cons]
      simp [h2]

theorem addPoly_cons_right (m : QMon) (c : ℚ) (A B : QPoly)
    (h : ∀ t ∈ A, monLtB m t.1 = true) :
    addPoly A ((m, c) :: B) = (m, c) :: addPoly A B := by
  cases A with
  | nil => rw [addPoly_nil_left, addPoly_nil_left]
  | cons t1 A2 =>
    cases t1 with
    | mk m1 c1 =>
      have h1 : monLtB m m1 = true := h (m1, c1) (List.mem_cons_self _ _)
      have h1f : monLtB m1 m = false := monLtB_asymm _ _ h1
      rw [addPoly_cons_cons]
      simp [h1f, h1]

theorem addPoly_single (m : QMon) (c : ℚ) (B : QPoly)
    (h : ∀ t ∈ B, monLtB m t.1 = true) :
    addPoly [(m, c)] B = (m, c) :: B := by
  rw [addPoly_cons_left m c [] B h, addPoly_nil_left]

theorem mem_enumFrom_getD {α : Type} (d : α) :
    ∀ (l : List α) (n : ℕ) (p : ℕ × α), p ∈ List.enumFrom n l →
      n ≤ p.1 ∧ l.getD (p.1 - n) d = p.2 := by
  intro l
  induction l with
  | nil => intro n p h; simp [List.enumFrom] at h
  | cons a as ih =>
    intro n p h
    simp only [List.enumFrom, List.mem_cons] at h
    rcases h with h | h
    · subst h; simp
    · obtain ⟨h1, h2⟩ := ih (n + 1) p h
      refine ⟨by omega, ?_⟩
      have he : p.1 - n = (p.1 - (n + 1)) + 1 := by omega
      rw [he]
      simpa using h2

theorem mem_enum_getD {α : Type} (d : α) (l : List α) (p : ℕ × α)
    (h : p ∈ l.enum) : l.getD p.1 d = p.2 := by
  have h2 := mem_enumFrom_getD d l 0 p (by simpa [List.enum] using h)
  simpa using h2.2

theorem findDecomp_sound (V : List (VName × QPoly)) (m : QMon) (i j : ℕ)
    (h : findDecomp V m = some (i, j)) :
    mulPoly (getVExpr V i) (getVExpr V j) = monPoly m := by
  unfold findDecomp at h
  rcases Option.map_eq_some'.mp h with ⟨pq, hfind, hpq⟩
  have hpred := List.find?_some hfind
  have hmem := List.mem_of_find?_eq_some hfind
  have hmul : mulPoly pq.1.2.2 pq.2.2.2 = monPoly m := of_decide_eq_true hpred
  unfold vPairs at hmem
  rw [List.mem_flatMap] at hmem
  rcases hmem with ⟨p1, hp1, hmem2⟩
  rw [List.mem_map] at hmem2
  rcases hmem2 with ⟨p2, hp2, hpair⟩
  have hi : V.getD pq.1.1 ([], []) = pq.1.2 := by
    rw [← hpair]
    exact mem_enum_getD ([], []) V p1 hp1
  have hj : V.getD pq.2.1 ([], []) = pq.2.2 := by
    rw [← hpair]
    exact mem_enum_getD ([], []) V p2 hp2
  injection hpq with h1 h2
  rw [← h1, ← h2]
  unfold getVExpr
  rw [hi, hj]
  exact hmul

theorem scalePoly_monPoly (m : QMon) (c : ℚ) (hc : c ≠ 0) :
    scalePoly c (monPoly m) = [(m, c)] := by
  simp [scalePoly, monPoly, hc, qmul_eq]

theorem substQF_cons (V : List (VName × QPoly)) (c : ℚ) (i j : ℕ) (q : QForm) :
    substQF V ((c, i, j) :: q) =
      addPoly (scalePoly c (mulPoly (getVExpr V i) (getVExpr V j))) (substQF V q) := rfl

theorem matchPoly_sound (V : List (VName × QPoly)) :
    ∀ (p : QPoly) (q : QForm), polyCanon p = true → matchPoly V p = some q →
      substQF V q = p := by
  intro p
  induction p with
  | nil =>
    intro q _ h
    simp only [matchPoly, Option.some_inj] at h
    rw [← h]
    rfl
  | cons t rest ih =>
    intro q hcanon h
    cases t with
    | mk m c =>
      simp only [matchPoly] at h
      cases hfd : findDecomp V m with
      | none => rw [hfd] at h; simp at h
      | some ij =>
        cases hmp : matchPoly V rest with
        | none => rw [hfd, hmp] at h; simp at h
        | some qr =>
          rw [hfd, hmp] at h
          cases ij with
          | mk i j =>
            simp only [Option.some_inj] at h
            rw [← h, substQF_cons]
            rw [findDecomp_sound V m i j hfd]
            rw [scalePoly_monPoly m c (polyCanon_coeff m c rest hcanon)]
            rw [ih qr (polyCanon_tail _ _ hcanon) hmp]
            exact addPoly_single m c rest (polyCanon_head_lt rest m c hcanon)

theorem addPoly_filter_split (f : QMon × ℚ → Bool) :
    ∀ p : QPoly, polyCanon p = true →
      addPoly (p.filter f) (p.filter (fun t => !(f t))) = p := by
  intro p
  induction p with
  | nil =>
    intro _
    rw [List.filter_nil, List.filter_nil, addPoly_nil_left]
  | cons t rest ih =>
    intro hcanon
    cases t with
    | mk m c =>
      have hlt := polyCanon_head_lt rest m c hcanon
      have hrest := ih (polyCanon_tail _ _ hcanon)
      cases hf : f (m, c) with
      | true =>
        have h1 : List.filter f ((m, c) :: rest) = (m, c) :: List.filter f rest := by
          simp [List.filter_cons, hf]
        have h2 : List.filter (fun t => !(f t)) ((m, c) :: rest) =
            List.filter (fun t => !(f t)) rest := by
          simp [List.filter_cons, hf]
        rw [h1, h2,
          addPoly_cons_left m c _ _ (fun t ht => hlt t (List.mem_of_mem_filter ht)),
          hrest]
      | false =>
        have h1 : List.filter f ((m, c) :: rest) = List.filter f rest := by
          simp [List.filter_cons, hf]
        have h2 : List.filter (fun t => !(f t)) ((m, c) :: rest) =
            (m, c) :: List.filter (fun t => !(f t)) rest := by
          simp [List.filter_cons, hf]
        rw [h1, h2,
          addPoly_cons_right m c _ _ (fun t ht => hlt t (List.mem_of_mem_filter ht)),
          hrest]

theorem matchedPoly_residualPoly_split (V : List (VName × QPoly)) (p : QPoly)
    (hcanon : polyCanon p = true) :
    addPoly (matchedPoly V p) (residualPoly V p) = p := by
  have h := addPoly_filter_split (fun t => (findDecomp V t.1).isSome) p hcanon
  unfold matchedPoly residualPoly
  have he : (fun t : QMon × ℚ => (findDecomp V t.1).isNone) =
      (fun t : QMon × ℚ => !((fun s : QMon × ℚ => (findDecomp V s.1).isSome) t)) := by
    funext t
    cases h2 : findDecomp V t.1 <;> simp [h2]
  rw [he]
  exact h

theorem matchPoly_none_residual (V : List (VName × QPoly)) :
    ∀ p : QPoly, matchPoly V p = none → residualPoly V p ≠ [] := by
  intro p
  induction p with
  | nil => intro h; simp [matchPoly] at h
  | cons t rest ih =>
    intro h
    cases t with
    | mk m c =>
      simp only [matchPoly] at h
      cases hfd : findDecomp V m with
      | none =>
        unfold residualPoly
        simp [List.filter_cons, hfd]
      | some ij =>
        rw [hfd] at h
        cases hmp : matchPoly V rest with
        | none =>
          have hr := ih hmp
          unfold residualPoly at hr ⊢
          simp only [List.filter_cons, hfd, Option.isNone_some, if_false]
          simpa using hr
        | some qr => rw [hmp] at h; cases ij with | mk i j => simp at h

theorem isQuadratization_quad_eq (V dT : List (VName × QPoly))
    (qs : List (VName × QForm)) (h : isQuadratization V dT = .quad qs) :
    qs = dT.map (fun sp => (sp.1, (matchPoly V sp.2).getD [])) ∧
      dT.all (fun sp => (matchPoly V sp.2).isSome) = true := by
  unfold isQuadratization at h
  by_cases hall : dT.all (fun sp => (matchPoly V sp.2).isSome) = true
  · rw [if_pos hall] at h
    injection h with h2
    exact ⟨h2.symm, hall⟩
  · rw [if_neg hall] at h
    exact absurd h (by simp)

theorem isQuadratization_residues_eq (V dT : List (VName × QPoly))
    (ns : List (VName × QPoly)) (h : isQuadratization V dT = .residues ns) :
    ns = (dT.filter (fun sp => !(matchPoly V sp.2).isSome)).map
        (fun sp => (sp.1, residualPoly V sp.2)) ∧
      dT.all (fun sp => (matchPoly V sp.2).isSome) = false := by
  unfold isQuadratization at h
  by_cases hall : dT.all (fun sp => (matchPoly V sp.2).isSome) = true
  · rw [if_pos hall] at h
    exact absurd h (by simp)
  · rw [if_neg hall] at h
    injection h with h2
    exact ⟨h2.symm, by rw [Bool.eq_false_iff]; exact hall⟩

theorem forall2_map_match (V : List (VName × QPoly)) :
    ∀ dT : List (VName × QPoly),
      (∀ sp ∈ dT, polyCanon sp.2 = true) →
      dT.all (fun sp => (matchPoly V sp.2).isSome) = true →
      List.Forall₂ (fun a b => a.1 = b.1 ∧ substQF V a.2 = b.2)
        (dT.map (fun sp => (sp.1, (matchPoly V sp.2).getD []))) dT := by
  intro dT
  induction dT with
  | nil => intro _ _; exact List.Forall₂.nil
  | cons sp rest ih =>
    intro hc hall
    simp only [List.all_cons, Bool.and_eq_true] at hall
    obtain ⟨h1, h2⟩ := hall
    cases hmp : matchPoly V sp.2 with
    | none => rw [hmp] at h1; simp at h1
    | some q0 =>
      have hg : (matchPoly V sp.2).getD [] = q0 := by rw [hmp]; rfl
      simp only [List.map_cons]
      refine List.Forall₂.cons ⟨rfl, ?_⟩
        (ih (fun x hx => hc x (List.mem_cons_of_mem _ hx)) h2)
      rw [hg]
      exact matchPoly_sound V sp.2 q0 (hc sp (List.mem_cons_self _ _)) hmp

/-- Claim C1: for every PDE system and candidate variable set that
`check_quadratization` accepts as quadratic (first component True),
substituting the auxiliary-variable definitions back into the returned
quadratic system and simplifying reproduces the original equations'
right-hand sides exactly: every equation of `quad_sys` has the same symbol
as the corresponding entry of `deriv_t`, and substituting the `V`
definitions into its quadratic form yields exactly that entry's ring
element. -/
theorem check_quadratization_sound :
    ∀ (s : PDESysM) (nv : List QPoly) (qs : List (VName × QForm)),
      (∀ sp ∈ derivTOf (setNewVarsS s nv), polyCanon sp.2 = true) →
      checkQuadratization s nv = .quad qs →
      List.Forall₂
        (fun a b => a.1 = b.1 ∧ substQF (vSetOf (setNewVarsS s nv)) a.2 = b.2)
        qs (derivTOf (setNewVarsS s nv)) := by
  intro s nv qs hcanon h
  obtain ⟨hqs, hall⟩ := isQuadratization_quad_eq _ _ _ h
  rw [hqs]
  exact forall2_map_match _ _ hcanon hall

/-- A one-equation system `u_t = u`, already quadratic: the ring has the
single generator `u` and the time-derivative dictionary sends `u` to
itself. -/
def sysUtoU : PDESysM where
  polyVarNames := [['u']]
  pdeEq := [(['u', '_', 't'], [([1], 1)])]
  fracRels := []
  newVars := []
  NSList := []
  quadSys := []
  dicT := fun i => if i = 0 then some [([1], 1)] else none
  dicX := fun _ => none
  fracDerT := []
  varOrder := fun _ => 0
  order := 0

theorem check_quadratization_sound_witness :
    (∀ sp ∈ derivTOf (setNewVarsS sysUtoU []), polyCanon sp.2 = true) ∧
    List.Forall₂
      (fun a b => a.1 = b.1 ∧ substQF (vSetOf (setNewVarsS sysUtoU [])) a.2 = b.2)
      [(['u', '_', 't'], [((1 : ℚ), 0, 1)])] (derivTOf (setNewVarsS sysUtoU [])) :=
  ⟨by decide, check_quadratization_sound sysUtoU [] _ (by decide) (by decide)⟩

theorem exists_unmatched_of_all_false (V : List (VName × QPoly)) :
    ∀ dT : List (VName × QPoly),
      dT.all (fun sp => (matchPoly V sp.2).isSome) = false →
      ∃ sp ∈ dT, (matchPoly V sp.2).isSome = false := by
  intro dT
  induction dT with
  | nil => intro h; simp at h
  | cons sp rest ih =>
    intro h
    simp only [List.all_cons, Bool.and_eq_false_iff] at h
    rcases h with h | h
    · exact ⟨sp, List.mem_cons_self _ _, h⟩
    · obtain ⟨x, hx, hx2⟩ := ih h
      exact ⟨x, List.mem_cons_of_mem _ hx, hx2⟩

/-- Claim C2: `check_quadratization` is verification only and returns a
pair: on success `(True, quad_sys)` where `quad_sys` rewrites every
`deriv_t` equation (same symbols, same length); on failure
`(False, NS_list)` where every entry is an `(equation_symbol,
residual_poly)` pair whose residual is the original expression minus the
best quadratic match found — the matched part plus the residual re-adds to
the original ring element. -/
theorem check_quadratization_pair :
    ∀ (s : PDESysM) (nv : List QPoly),
      (∀ sp ∈ derivTOf (setNewVarsS s nv), polyCanon sp.2 = true) →
      (∀ qs, checkQuadratization s nv = .quad qs →
        (QuadResult.quad qs).fst = true ∧
        qs.map Prod.fst = (derivTOf (setNewVarsS s nv)).map Prod.fst) ∧
      (∀ ns, checkQuadratization s nv = .residues ns →
        (QuadResult.residues ns).fst = false ∧ ns ≠ [] ∧
        ∀ pr ∈ ns, pr.2 ≠ [] ∧
          ∃ p, (pr.1, p) ∈ derivTOf (setNewVarsS s nv) ∧
            pr.2 = residualPoly (vSetOf (setNewVarsS s nv)) p ∧
            addPoly (matchedPoly (vSetOf (setNewVarsS s nv)) p) pr.2 = p) := by
  intro s nv hcanon
  constructor
  · intro qs h
    refine ⟨rfl, ?_⟩
    obtain ⟨hqs, _⟩ := isQuadratization_quad_eq _ _ _ h
    rw [hqs, List.map_map]
    rfl
  · intro ns h
    obtain ⟨hns, hall⟩ := isQuadratization_residues_eq _ _ _ h
    refine ⟨rfl, ?_, ?_⟩
    · obtain ⟨sp, hsp, hfail⟩ := exists_unmatched_of_all_false _ _ hall
      have hmemf : sp ∈ (derivTOf (setNewVarsS s nv)).filter
          (fun sp => !(matchPoly (vSetOf (setNewVarsS s nv)) sp.2).isSome) := by
        rw [List.mem_filter]
        exact ⟨hsp, by rw [hfail]; rfl⟩
      rw [hns]
      exact List.ne_nil_of_mem (List.mem_map_of_mem _ hmemf)
    · intro pr hpr
      rw [hns] at hpr
      rw [List.mem_map] at hpr
      obtain ⟨sp, hspf, hpr2⟩ := hpr
      rw [List.mem_filter] at hspf
      obtain ⟨hspmem, hspfail⟩ := hspf
      have hnone : matchPoly (vSetOf (setNewVarsS s nv)) sp.2 = none := by
        cases hmp : matchPoly (vSetOf (setNewVarsS s nv)) sp.2 with
        | none => rfl
        | some q0 => rw [hmp] at hspfail; simp at hspfail
      have hres : residualPoly (vSetOf (setNewVarsS s nv)) sp.2 ≠ [] :=
        matchPoly_none_residual _ _ hnone
      rw [← hpr2]
      refine ⟨hres, sp.2, ?_, rfl, ?_⟩
      · simpa using hspmem
      · exact matchedPoly_residualPoly_split _ _ (hcanon sp hspmem)

/-- A one-equation system `u_t = u^3` over the single generator `u`: not
quadratic with the empty variable set. -/
def sysUcube : PDESysM where
  polyVarNames := [['u']]
  pdeEq := [(['u', '_', 't'], [([3], 1)])]
  fracRels := []
  newVars := []
  NSList := []
  quadSys := []
  dicT := fun i => if i = 0 then some [([3], 1)] else none
  dicX := fun _ => none
  fracDerT := []
  varOrder := fun _ => 0
  order := 0

theorem check_quadratization_pair_witness :
    (∀ sp ∈ derivTOf (setNewVarsS sysUcube []), polyCanon sp.2 = true) ∧
    (QuadResult.residues [(['u', '_', 't'], [([3], (1 : ℚ))])]).fst = false ∧
    [(['u', '_', 't'], ([([3], (1 : ℚ))] : QPoly))] ≠ [] :=
  ⟨by decide, ((check_quadratization_pair sysUcube [] (by decide)).2
      [(['u', '_', 't'], [([3], 1)])] (by decide)).1,
    (((check_quadratization_pair sysUcube [] (by decide)).2
      [(['u', '_', 't'], [([3], 1)])] (by decide)).2).1⟩

/-- Modelled from the spec: the valuation under which a reciprocal variable
denotes the inverse of its denominator — `q_i` is "the reciprocal of a
denominator polynomial" (§3, Fraction Decomposition). -/
def recipExtend (r : FracRel) (v : ℕ → ℚ) : ℕ → ℚ :=
  fun i => if i = r.qIdx then qinv (evalPoly r.denom v) else v i

theorem evalMonFrom_agree (v w : ℕ → ℚ) :
    ∀ (m : QMon) (n : ℕ), (∀ k, m.getD k 0 ≠ 0 → v (n + k) = w (n + k)) →
      evalMonFrom v n m = evalMonFrom w n m := by
  intro m
  induction m with
  | nil => intro n _; rfl
  | cons e rest ih =>
    intro n h
    unfold evalMonFrom
    have h2 : ∀ k, rest.getD k 0 ≠ 0 → v (n + 1 + k) = w (n + 1 + k) := by
      intro k hk
      have h3 := h (k + 1) (by simpa using hk)
      have he : n + (k + 1) = n + 1 + k := by omega
      rw [he] at h3
      exact h3
    rw [ih (n + 1) h2]
    by_cases he : e = 0
    · subst he
      simp [qpow]
    · have hvn : v n = w n := by
        have h4 := h 0 (by simpa using he)
        simpa using h4
      rw [hvn]

theorem evalMonFrom_nil (v : ℕ → ℚ) (n : ℕ) : evalMonFrom v n [] = 1 := rfl

theorem evalMonFrom_cons (v : ℕ → ℚ) (n e : ℕ) (rest : QMon) :
    evalMonFrom v n (e :: rest) =
      qmul (qpow (v n) e) (evalMonFrom v (n + 1) rest) := rfl

theorem evalPoly_nil (v : ℕ → ℚ) : evalPoly [] v = 0 := rfl

theorem evalPoly_cons (t : QMon × ℚ) (rest : QPoly) (v : ℕ → ℚ) :
    evalPoly (t :: rest) v =
      qadd (qmul t.2 (evalMonFrom v 0 t.1)) (evalPoly rest v) := rfl

theorem evalPoly_agree (v w : ℕ → ℚ) :
    ∀ p : QPoly, (∀ k, polyUses p k = true → v k = w k) →
      evalPoly p v = evalPoly p w := by
  intro p
  induction p with
  | nil => intro _; rw [evalPoly_nil, evalPoly_nil]
  | cons t rest ih =>
    intro h
    rw [evalPoly_cons, evalPoly_cons]
    have h1 : evalMonFrom v 0 t.1 = evalMonFrom w 0 t.1 := by
      apply evalMonFrom_agree
      intro k hk
      have hu : polyUses (t :: rest) k = true := by
        unfold polyUses monUses
        simp only [List.any_cons, Bool.or_eq_true]
        left
        simpa [monUses] using hk
      simpa using h k hu
    have h2 : evalPoly rest v = evalPoly rest w := by
      apply ih
      intro k hk
      apply h k
      unfold polyUses at hk ⊢
      simp only [List.any_cons, Bool.or_eq_true]
      right
      exact hk
    rw [h1, h2]

theorem evalMonFrom_replicate (v : ℕ → ℚ) :
    ∀ (i n : ℕ), evalMonFrom v n (List.replicate i 0 ++ [1]) = v (n + i) := by
  intro i
  induction i with
  | zero =>
    intro n
    have hrep : List.replicate 0 (0 : ℕ) ++ [1] = [(1 : ℕ)] := rfl
    rw [hrep, evalMonFrom_cons, evalMonFrom_nil, qmul_eq, qpow_eq]
    simp
  | succ k ih =>
    intro n
    have hrep : List.replicate (k + 1) (0 : ℕ) ++ [1] =
        0 :: (List.replicate k 0 ++ [1]) := by
      simp [List.replicate_succ]
    rw [hrep, evalMonFrom_cons, ih (n + 1)]
    have he : n + 1 + k = n + (k + 1) := by omega
    rw [he, qmul_eq, qpow_eq]
    simp

theorem evalPoly_varPoly (v : ℕ → ℚ) (i : ℕ) :
    evalPoly (varPoly i) v = v i := by
  unfold varPoly
  rw [evalPoly_cons, evalPoly_nil, evalMonFrom_replicate v i 0,
    qadd_eq, qmul_eq]
  simp

/-- The operations a `PDESys` instance exposes after construction
(`set_new_vars`, `set_NS_list`, `set_quad_sys`, `try_make_quadratic`). -/
inductive PDEOp where
  | setNewVars (l : List QPoly)
  | setNSList (l : List (VName × QPoly))
  | setQuadSys (l : List (VName × QForm))
  | tryQuad

/-- Apply one `PDESys` operation to the state. -/
def applyOp (s : PDESysM) : PDEOp → PDESysM
  | .setNewVars l => setNewVarsS s l
  | .setNSList l => setNSListS s l
  | .setQuadSys l => setQuadSysS s l
  | .tryQuad => (tmqState s).1

/-- Apply a sequence of `PDESys` operations. -/
def applyOps (s : PDESysM) : List PDEOp → PDESysM
  | [] => s
  | op :: ops => applyOps (applyOp s op) ops

theorem applyOp_fracRels (s : PDESysM) (op : PDEOp) :
    (applyOp s op).fracRels = s.fracRels := by
  cases op with
  | setNewVars l => rfl
  | setNSList l => rfl
  | setQuadSys l => rfl
  | tryQuad =>
    unfold applyOp tmqState
    cases tryMakeQuadratic s <;> rfl

theorem applyOps_fracRels (s : PDESysM) :
    ∀ ops : List PDEOp, (applyOps s ops).fracRels = s.fracRels := by
  intro ops
  induction ops generalizing s with
  | nil => rfl
  | cons op rest ih =>
    unfold applyOps
    rw [ih (applyOp s op), applyOp_fracRels]

/-- Claim C3: for every `(q_i, denominator_i)` relation stored in
`new_vars["frac_vars"]`, the ring product `q_i * denominator_i` evaluates
to the multiplicative identity 1 under the reciprocal interpretation of
`q_i` (whenever the denominator is nonzero), and every operation on the
`PDESys` leaves the fraction relations — and hence the invariant — intact
for the lifetime of the instance. -/
theorem frac_vars_invariant :
    ∀ (r : FracRel) (v : ℕ → ℚ),
      polyUses r.denom r.qIdx = false →
      evalPoly r.denom v ≠ 0 →
      qmul (evalPoly (varPoly r.qIdx) (recipExtend r v))
          (evalPoly r.denom (recipExtend r v)) = 1 ∧
      ∀ (s : PDESysM) (ops : List PDEOp), r ∈ s.fracRels →
        r ∈ (applyOps s ops).fracRels := by
  intro r v huses hnz
  have hagree : evalPoly r.denom (recipExtend r v) = evalPoly r.denom v := by
    apply evalPoly_agree
    intro k hk
    unfold recipExtend
    have : k ≠ r.qIdx := by
      intro hc
      subst hc
      rw [huses] at hk
      exact absurd hk (by simp)
    rw [if_neg this]
  constructor
  · rw [evalPoly_varPoly, hagree]
    unfold recipExtend
    rw [if_pos rfl, qmul_eq, qinv_eq]
    exact inv_mul_cancel₀ hnz
  · intro s ops hmem
    rw [applyOps_fracRels]
    exact hmem

/-- The fraction relation `q_0 * (5*u + 5) = 1` of the spec's example
`u_t = 1/(5*(u+1))`: generator 0 is `u`, generator 1 is `q_0`. -/
def fracR0 : FracRel where
  qVName := ['q', '_', '0']
  qIdx := 1
  denom := [([], 5), ([1], 5)]

/-- The all-ones valuation. -/
def vOne : ℕ → ℚ := fun _ => 1

theorem frac_vars_invariant_witness :
    polyUses fracR0.denom fracR0.qIdx = false ∧
    evalPoly fracR0.denom vOne ≠ 0 ∧
    qmul (evalPoly (varPoly fracR0.qIdx) (recipExtend fracR0 vOne))
        (evalPoly fracR0.denom (recipExtend fracR0 vOne)) = 1 :=
  ⟨by decide, by decide, (frac_vars_invariant fracR0 vOne (by decide) (by decide)).1⟩

/-- The trivially quadratic system `u_t = u` carrying a stale residue list
left over from an earlier failed verification. -/
def sQuadStale : PDESysM where
  polyVarNames := [['u']]
  pdeEq := [(['u', '_', 't'], [([1], 1)])]
  fracRels := []
  newVars := []
  NSList := [(['s'], [([3], 1)])]
  quadSys := []
  dicT := fun i => if i = 0 then some [([1], 1)] else none
  dicX := fun _ => none
  fracDerT := []
  varOrder := fun _ => 0
  order := 0

/-- Claim C9 counterexample: a successful `try_make_quadratic` call does NOT
overwrite `NS_list` — the stale residues of an earlier failed call survive,
so after the call the attribute does not hold the residue set produced by
that call (which would be empty). -/
theorem tmq_stale_NSList :
    (tryMakeQuadratic sQuadStale).fst = true ∧
    (tmqState sQuadStale).1.NSList = [(['s'], [([3], (1 : ℚ))])] ∧
    (tmqState sQuadStale).1.NSList ≠ [] := by
  refine ⟨by decide, by decide, ?_⟩
  intro h
  have h2 : (tmqState sQuadStale).1.NSList = [(['s'], [([3], (1 : ℚ))])] := by decide
  rw [h2] at h
  exact absurd h (by simp)

/-- Claim C9 amended: `PDESys.try_make_quadratic` assigns `NS_list` only on
failing verification calls — after a failed call `NS_list` holds exactly
that call's residue set, while a successful call leaves `NS_list`
unchanged, so stale residues from an earlier failed call persist. -/
theorem tmq_NSList_update :
    ∀ s : PDESysM,
      (∀ ns, tryMakeQuadratic s = .residues ns → (tmqState s).1.NSList = ns) ∧
      (∀ qs, tryMakeQuadratic s = .quad qs → (tmqState s).1.NSList = s.NSList) := by
  intro s
  constructor
  · intro ns h
    unfold tmqState
    rw [h]
  · intro qs h
    unfold tmqState
    rw [h]

theorem tmq_NSList_update_witness :
    (tmqState sysUcube).1.NSList = [(['u', '_', 't'], [([3], (1 : ℚ))])] ∧
    (tmqState sQuadStale).1.NSList = sQuadStale.NSList :=
  ⟨(tmq_NSList_update sysUcube).1 _ (by decide),
    (tmq_NSList_update sQuadStale).2 [(['u', '_', 't'], [(1, 0, 1)])] (by decide)⟩

theorem enumFrom_filter_q_names :
    ∀ (l : List VName) (n : ℕ),
      (((List.enumFrom n l).filter (fun p => p.2.headD ' ' ≠ 'q')).map
          (fun p => ((p.2), varPoly p.1))).map Prod.fst =
        l.filter (fun nm => nm.headD ' ' ≠ 'q') := by
  intro l
  induction l with
  | nil => intro n; rfl
  | cons a as ih =>
    intro n
    have hexp : List.enumFrom n (a :: as) = (n, a) :: List.enumFrom (n + 1) as := rfl
    by_cases ha : a.headD ' ' = 'q'
    · have h1 : (decide ((n, a).2.headD ' ' ≠ 'q')) = false :=
        decide_eq_false (not_not_intro ha)
      have h2 : (decide (a.headD ' ' ≠ 'q')) = false :=
        decide_eq_false (not_not_intro ha)
      rw [hexp]
      simp only [List.filter_cons, h1, h2, Bool.false_eq_true, if_false]
      exact ih (n + 1)
    · have h1 : (decide ((n, a).2.headD ' ' ≠ 'q')) = true := decide_eq_true ha
      have h2 : (decide (a.headD ' ' ≠ 'q')) = true := decide_eq_true ha
      rw [hexp]
      simp only [List.filter_cons, h1, h2, if_true, List.map_cons]
      rw [ih (n + 1)]

/-- Claim C10: `try_make_quadratic` builds `V` by discarding every ring
generator whose printed name begins with `'q'` and re-adding only the
fraction reciprocal symbols.  For a system whose generator names split into
non-`q`-headed names `A` (the unknown functions' variables and derivative
chains) followed by `q`-headed names `B` (the reciprocal chains), the names
of `V` are exactly the constant 1, all of `A`, the reciprocal symbols, the
named auxiliary variables and their spatial derivatives; and any generator
whose name begins with `'q'` (in particular an unknown function named with
a leading `q`) is silently omitted from `V` unless it is one of the
re-added names. -/
theorem tmq_V_construction :
    (∀ (s : PDESysM) (nvN nvX : List (VName × QPoly)) (A B : List VName),
      s.polyVarNames = A ++ B →
      (∀ nm ∈ A, nm.headD ' ' ≠ 'q') →
      (∀ nm ∈ B, nm.headD ' ' = 'q') →
      (buildV s nvN nvX).map Prod.fst =
        ['1'] :: A ++ s.fracRels.map (fun r => r.qVName)
          ++ nvN.map Prod.fst ++ nvX.map Prod.fst) ∧
    (∀ (s : PDESysM) (nvN nvX : List (VName × QPoly)) (f : VName),
      f.headD ' ' = 'q' →
      f ∉ s.fracRels.map (fun r => r.qVName) →
      f ∉ nvN.map Prod.fst → f ∉ nvX.map Prod.fst →
      f ∉ (buildV s nvN nvX).map Prod.fst) := by
  constructor
  · intro s nvN nvX A B hsplit hA hB
    unfold buildV
    simp only [List.map_cons, List.map_append, List.map_map]
    have h1 : (((s.polyVarNames.enum.filter (fun p => p.2.headD ' ' ≠ 'q')).map
        (fun p => ((p.2), varPoly p.1))).map Prod.fst) =
        s.polyVarNames.filter (fun nm => nm.headD ' ' ≠ 'q') := by
      have := enumFrom_filter_q_names s.polyVarNames 0
      simpa [List.enum] using this
    rw [List.map_map] at h1
    rw [h1, hsplit, List.filter_append]
    have h2 : A.filter (fun nm => nm.headD ' ' ≠ 'q') = A :=
      List.filter_eq_self.mpr (fun a ha => decide_eq_true (hA a ha))
    have h3 : B.filter (fun nm => nm.headD ' ' ≠ 'q') = [] :=
      List.filter_eq_nil_iff.mpr
        (fun b hb => by
          rw [decide_eq_false (not_not_intro (hB b hb))]
          simp)
    rw [h2, h3, List.append_nil]
    rfl
  · intro s nvN nvX f hq hfrac hnvN hnvX hmem
    unfold buildV at hmem
    simp only [List.map_cons, List.map_append, List.map_map, List.mem_cons,
      List.mem_append] at hmem
    rcases hmem with (((h1 | h2) | h3) | h4) | h5
    · rw [h1] at hq
      exact absurd hq (by decide)
    · rw [List.mem_map] at h2
      obtain ⟨p, hp, hpe⟩ := h2
      rw [List.mem_filter] at hp
      have hpred := hp.2
      have hfe : f.headD ' ' ≠ 'q' := by
        rw [← hpe]
        simpa using of_decide_eq_true hpred
      exact hfe hq
    · exact hfrac (by simpa using h3)
    · exact hnvN (by simpa using h4)
    · exact hnvX (by simpa using h5)

/-- A system with an unknown function named `u` and a second unknown
function named `qf` — a name beginning with the character `q`. -/
def sysQfun : PDESysM where
  polyVarNames := [['u'], ['q', 'f']]
  pdeEq := [(['u', '_', 't'], [([1], 1)]), (['q', 'f', '_', 't'], [([0, 1], 1)])]
  fracRels := []
  newVars := []
  NSList := []
  quadSys := []
  dicT := fun i => if i = 0 then some [([1], 1)] else
    if i = 1 then some [([0, 1], 1)] else none
  dicX := fun _ => none
  fracDerT := []
  varOrder := fun _ => 0
  order := 0

theorem tmq_V_construction_witness :
    (buildV sysQfun [] []).map Prod.fst = ['1'] :: [['u']] ∧
    ['q', 'f'] ∉ (buildV sysQfun [] []).map Prod.fst :=
  ⟨by
    have h := tmq_V_construction.1 sysQfun [] [] [['u']] [['q', 'f']] rfl
      (by decide) (by decide)
    simpa using h,
  tmq_V_construction.2 sysQfun [] [] ['q', 'f'] (by decide) (by decide)
    (by decide) (by decide)⟩

/-- First monomial of minimum total degree (Python `min(monoms, key=sum)`:
the first minimal element in iteration order). -/
def minBySum : List QMon → QMon → QMon
  | [], acc => acc
  | m :: r, acc => minBySum r (if monDeg m < monDeg acc then m else acc)

/-- The monomials of total degree greater than 2 of a residual polynomial
(`[m for m in ns_pol[1].itermonoms() if sum(m) > 2]`). -/
def bigMonoms (p : QPoly) : List QMon :=
  (p.map Prod.fst).filter (fun m => 2 < monDeg m)

/-- `PDESys.prop_new_vars`, monomial-selection step (pde_sys.py, lines
444-449), translated faithfully: `min_monom` starts as the zero exponent
vector sized by the first residual's leading monomial; the loop rebinds
`monoms` on every iteration and the `if monoms:` test sits OUTSIDE the
loop, so only the last residual polynomial's monomials are inspected. -/
def propSelect (NS : List (VName × QPoly)) : QMon :=
  let zero : QMon :=
    List.replicate (((NS.headD (['#'], [])).2.headD ([], 0)).1.length) 0
  match bigMonoms (NS.getLastD (['#'], [])).2 with
  | [] => zero
  | m :: rest => minBySum rest m

/-- Selection as the claim and §4.6 state it: the minimum-degree monomial of
total degree greater than 2 among the monomials of ALL residual
polynomials in `NS_list` (tie-break: first encountered in iteration
order). -/
def propSelectSpec (NS : List (VName × QPoly)) : QMon :=
  match NS.flatMap (fun sp => bigMonoms sp.2) with
  | [] => []
  | m :: rest => minBySum rest m

/-- Modelled from the spec: all splittings of one exponent slot. -/
def subMonoms : QMon → List QMon
  | [] => [[]]
  | e :: rest =>
    (List.range (e + 1)).flatMap (fun a => (subMonoms rest).map (fun s => a :: s))

/-- Componentwise difference of exponent vectors. -/
def monSub : QMon → QMon → QMon
  | [], _ => []
  | e :: r, [] => e :: r
  | e :: r, a :: b => (e - a) :: monSub r b

/-- Modelled from the spec: `utils.get_decompositions` — all factorizations
of a monomial's exponent vector into two sub-monomials (§4.6). -/
def get_decompositions (m : QMon) : List (QMon × QMon) :=
  (subMonoms m).map (fun a => (a, monSub m a))

/-- Modelled from the spec: `utils.remove_vars` — drop candidates already
present in the current auxiliary set (§4.6 deduplication). -/
def removeVars (cands : List (QPoly × QPoly)) (existing : List QPoly) :
    List (QPoly × QPoly) :=
  cands.filter (fun c => !(c.1 ∈ existing && c.2 ∈ existing))

/-- Modelled from the spec: `utils.sort_vars` with a pluggable heuristic —
the ordering determines search priority, not correctness (§4.6); modelled
as the stable identity ordering. -/
def sortVars (cands : List (QPoly × QPoly)) : List (QPoly × QPoly) := cands

/-- `PDESys.prop_new_vars` (pde_sys.py, lines 426-473): select a monomial,
enumerate its two-factor decompositions as monomial-pair candidates,
deduplicate against the existing auxiliary variables, sort. -/
def propNewVars (NS : List (VName × QPoly)) (existing : List QPoly) :
    List (QPoly × QPoly) :=
  let listVars := (get_decompositions (propSelect NS)).map
    (fun ab => (monPoly ab.1, monPoly ab.2))
  sortVars (removeVars listVars existing)

/-- The two-residual list `[(a, x^3), (b, y^4)]`: the minimum-degree
non-quadratic monomial over ALL residuals is `x^3`, but it lives in the
first entry only. -/
def nsC6 : List (VName × QPoly) := [(['a'], [([3, 0], 1)]), (['b'], [([0, 4], 1)])]

/-- Claim C6, evaluated at the failing input: the code inspects only the
LAST residual polynomial (the `if monoms:` test sits outside the `for`
loop, which rebinds `monoms` each iteration), so it selects `y^4` of
degree 4 and returns its decompositions, while the claim requires the
global minimum `x^3` of degree 3. -/
theorem prop_new_vars_last_residual_only :
    propSelect nsC6 = [0, 4] ∧
    propSelectSpec nsC6 = [3, 0] ∧
    monDeg (propSelect nsC6) ≠ monDeg (propSelectSpec nsC6) ∧
    propNewVars nsC6 [] =
      (get_decompositions [0, 4]).map (fun ab => (monPoly ab.1, monPoly ab.2)) := by
  refine ⟨by decide, by decide, by decide, by decide⟩

/-- Input data of `PDESys.get_dics` (pde_sys.py, lines 214-267): the number
of unknown functions, the orders, each equation's ring right-hand side
(`self.pde_eq[k][1]`) and the fraction relations.  The ring generators are
laid out as in `build_ring`: generator `i + (der_order+1)*k` is the `i`-th
spatial derivative of function `k`, followed by the reciprocal chains. -/
structure DicsInput where
  numFuncs : ℕ
  maxOrder : ℕ
  order : ℕ
  rhs : ℕ → QPoly
  rels : List FracRel

/-- `der_order = self.max_order + self.order` (line 234). -/
def derOrderOf (inp : DicsInput) : ℕ := inp.maxOrder + inp.order

/-- One `dic_x` inner-loop assignment:
`dic_x[poly_vars[j + base]] = poly_vars[j + base + 1]` (lines 237-239). -/
def xStepB (base : ℕ) (d2 : Dict) (j : ℕ) : Dict :=
  dset d2 (j + base) (varPoly (j + base + 1))

/-- The `dic_x` double loop over functions and derivative indices
(lines 235-241). -/
def dicXBase (inp : DicsInput) : Dict :=
  (List.range inp.numFuncs).foldl
    (fun d i =>
      (List.range (derOrderOf inp)).foldl (xStepB ((derOrderOf inp + 1) * i)) d)
    (fun _ => none)

/-- `dic_x` after the fraction-relation loop (lines 242-246): entry
`count = (der_order+1)*(numFuncs + idx)` receives `diff_frac(rel, dic_x)`
computed against the dictionary built so far. -/
def getDicsX (inp : DicsInput) : Dict :=
  (inp.rels.enum).foldl
    (fun d pr =>
      dset d ((derOrderOf inp + 1) * (inp.numFuncs + pr.1)) (diffFrac pr.2 d))
    (dicXBase inp)

/-- One `dic_t` inner-loop assignment (lines 250-257): order 0 is seeded
with the equation's right-hand side, order `i > 0` with
`diff_dict(dic_t[previous], dic_x)`. -/
def tStepB (dx : Dict) (rhsk : QPoly) (base : ℕ) (d2 : Dict) (i : ℕ) : Dict :=
  if i = 0 then dset d2 base rhsk
  else dset d2 (i + base) (diff_dict (dget d2 (i - 1 + base)) dx 1)

/-- The `dic_t` inner loop for one function block. -/
def tBlock (inp : DicsInput) (dx : Dict) (k : ℕ) (d : Dict) : Dict :=
  (List.range (derOrderOf inp)).foldl
    (tStepB dx (inp.rhs k) ((derOrderOf inp + 1) * k)) d

/-- The `dic_t` double loop over functions and derivative indices
(lines 248-257). -/
def dicTBase (inp : DicsInput) (dx : Dict) : Dict :=
  (List.range inp.numFuncs).foldl (fun d k => tBlock inp dx k d) (fun _ => none)

/-- `dic_t` after the fraction-relation loop (lines 258-265): entry
`count` receives `diff_frac(rel, dic_t)` against the dictionary so far. -/
def getDicsT (inp : DicsInput) : Dict :=
  (inp.rels.enum).foldl
    (fun d pr =>
      dset d ((derOrderOf inp + 1) * (inp.numFuncs + pr.1)) (diffFrac pr.2 d))
    (dicTBase inp (getDicsX inp))

/-- The time-derivative chain of one function: order 0 is the equation's
right-hand side, order `i+1` differentiates order `i` through `dic_x`. -/
def tValB (dx : Dict) (rhsk : QPoly) : ℕ → QPoly
  | 0 => rhsk
  | i + 1 => diff_dict (tValB dx rhsk i) dx 1

theorem key_lt_block (D i k n : ℕ) (hi : i < D + 1) (hk : k < n) :
    i + (D + 1) * k < (D + 1) * n := by
  have h1 : (D + 1) * (k + 1) = (D + 1) * k + (D + 1) := by ring
  have h2 : (D + 1) * (k + 1) ≤ (D + 1) * n := Nat.mul_le_mul_left _ hk
  omega

theorem dset_eq (d : Dict) (k : ℕ) (v : QPoly) : dset d k v k = some v := by
  unfold dset
  rw [if_pos rfl]

theorem dset_ne (d : Dict) (k : ℕ) (v : QPoly) (x : ℕ) (h : x ≠ k) :
    dset d k v x = d x := by
  unfold dset
  rw [if_neg h]

theorem tStepB_zero (dx : Dict) (rhsk : QPoly) (base : ℕ) (d2 : Dict) :
    tStepB dx rhsk base d2 0 = dset d2 base rhsk := rfl

theorem tStepB_pos (dx : Dict) (rhsk : QPoly) (base : ℕ) (d2 : Dict) (i : ℕ)
    (h : i ≠ 0) :
    tStepB dx rhsk base d2 i =
      dset d2 (i + base) (diff_dict (dget d2 (i - 1 + base)) dx 1) := by
  unfold tStepB
  rw [if_neg h]

theorem tFold_lookup (dx : Dict) (rhsk : QPoly) (base : ℕ) :
    ∀ (j : ℕ) (d0 : Dict),
      (∀ i, i < j →
        ((List.range j).foldl (tStepB dx rhsk base) d0) (i + base) =
          some (tValB dx rhsk i)) ∧
      (∀ key, key < base ∨ base + j ≤ key →
        ((List.range j).foldl (tStepB dx rhsk base) d0) key = d0 key) := by
  intro j
  induction j with
  | zero =>
    intro d0
    exact ⟨fun i hi => absurd hi (by omega), fun key _ => rfl⟩
  | succ j ih =>
    intro d0
    have hfold : (List.range (j + 1)).foldl (tStepB dx rhsk base) d0 =
        tStepB dx rhsk base ((List.range j).foldl (tStepB dx rhsk base) d0) j := by
      rw [List.range_succ, List.foldl_append]
      rfl
    obtain ⟨ih1, ih2⟩ := ih d0
    constructor
    · intro i hi
      rw [hfold]
      by_cases hj : j = 0
      · subst hj
        have hie : i = 0 := by omega
        subst hie
        rw [tStepB_zero]
        have hz : (0 : ℕ) + base = base := by omega
        rw [hz, dset_eq]
        rfl
      · rw [tStepB_pos _ _ _ _ _ hj]
        by_cases hij : i = j
        · subst hij
          rw [dset_eq]
          unfold dget
          rw [ih1 (i - 1) (by omega)]
          cases i with
          | zero => exact absurd rfl hj
          | succ m => rfl
        · rw [dset_ne _ _ _ _ (by omega)]
          exact ih1 i (by omega)
    · intro key hkey
      rw [hfold]
      by_cases hj : j = 0
      · subst hj
        rw [tStepB_zero, dset_ne _ _ _ _ (by omega)]
        exact ih2 key (by omega)
      · rw [tStepB_pos _ _ _ _ _ hj, dset_ne _ _ _ _ (by omega)]
        exact ih2 key (by omega)

theorem dicTBase_lookup (inp : DicsInput) (dx : Dict) :
    ∀ (n : ℕ) (k i : ℕ), k < n → i < derOrderOf inp →
      (((List.range n).foldl (fun d k2 => tBlock inp dx k2 d) (fun _ => none) : Dict)
          (i + (derOrderOf inp + 1) * k)) =
        some (tValB dx (inp.rhs k) i) := by
  intro n
  induction n with
  | zero => intro k i hk _; exact absurd hk (by omega)
  | succ n ih =>
    intro k i hk hi
    have hfold : ((List.range (n + 1)).foldl (fun d k2 => tBlock inp dx k2 d)
          (fun _ => none) : Dict) =
        tBlock inp dx n ((List.range n).foldl (fun d k2 => tBlock inp dx k2 d)
          (fun _ => none)) := by
      rw [List.range_succ, List.foldl_append]
      rfl
    rw [hfold]
    unfold tBlock
    by_cases hkn : k = n
    · subst hkn
      exact ((tFold_lookup dx (inp.rhs k) ((derOrderOf inp + 1) * k)
        (derOrderOf inp) _).1) i hi
    · have hlt : i + (derOrderOf inp + 1) * k < (derOrderOf inp + 1) * n :=
        key_lt_block (derOrderOf inp) i k n (by omega) (by omega)
      rw [((tFold_lookup dx (inp.rhs n) ((derOrderOf inp + 1) * n)
        (derOrderOf inp) _).2) _ (Or.inl hlt)]
      exact ih k i (by omega) hi

theorem relFold_frame (inp : DicsInput) (key : ℕ)
    (hkey : key < (derOrderOf inp + 1) * inp.numFuncs) :
    ∀ (l : List (ℕ × FracRel)) (d : Dict),
      (l.foldl
          (fun d2 pr =>
            dset d2 ((derOrderOf inp + 1) * (inp.numFuncs + pr.1)) (diffFrac pr.2 d2))
          d) key = d key := by
  intro l
  induction l with
  | nil => intro d; rfl
  | cons pr rest ih =>
    intro d
    rw [List.foldl_cons, ih]
    unfold dset
    rw [if_neg ?hne]
    case hne =>
      intro hc
      have hle : (derOrderOf inp + 1) * inp.numFuncs ≤
          (derOrderOf inp + 1) * (inp.numFuncs + pr.1) :=
        Nat.mul_le_mul_left _ (by omega)
      omega

theorem getDicsT_lookup (inp : DicsInput) (k i : ℕ)
    (hk : k < inp.numFuncs) (hi : i < derOrderOf inp) :
    getDicsT inp (i + (derOrderOf inp + 1) * k) =
      some (tValB (getDicsX inp) (inp.rhs k) i) := by
  unfold getDicsT
  rw [relFold_frame inp _ (key_lt_block _ _ _ _ (by omega) hk)]
  unfold dicTBase
  exact dicTBase_lookup inp (getDicsX inp) inp.numFuncs k i hk hi

/-- Claim C4: in `PDESys.get_dics`, for every unknown function `k` and
every spatial-derivative index `i` with `1 ≤ i < max_order + order`, the
time-derivative dictionary satisfies
`dic_t[name_x(i)] = diff_dict(dic_t[name_x(i-1)], dic_x)`, and the order-0
entry `dic_t[name]` is seeded with that function's right-hand side. -/
theorem get_dics_recurrence :
    ∀ (inp : DicsInput) (k i : ℕ),
      k < inp.numFuncs → 1 ≤ i → i < derOrderOf inp →
      getDicsT inp ((derOrderOf inp + 1) * k) = some (inp.rhs k) ∧
      getDicsT inp (i + (derOrderOf inp + 1) * k) =
        some (diff_dict
          (dget (getDicsT inp) (i - 1 + (derOrderOf inp + 1) * k))
          (getDicsX inp) 1) := by
  intro inp k i hk h1 hi
  constructor
  · have h0 := getDicsT_lookup inp k 0 hk (by omega)
    rw [Nat.zero_add] at h0
    exact h0
  · have ha := getDicsT_lookup inp k i hk hi
    have hb := getDicsT_lookup inp k (i - 1) hk (by omega)
    rw [ha]
    unfold dget
    rw [hb]
    cases i with
    | zero => omega
    | succ m => rfl

/-- `get_dics` input for the system `u_t = u_x1` with `max_order = 1`,
`order = 1` (so `der_order = 2`, generators `u`, `u_x1`, `u_x2`). -/
def dicsInp0 : DicsInput where
  numFuncs := 1
  maxOrder := 1
  order := 1
  rhs := fun _ => [([0, 1], 1)]
  rels := []

theorem get_dics_recurrence_witness :
    (0 < dicsInp0.numFuncs ∧ 1 ≤ 1 ∧ 1 < derOrderOf dicsInp0) ∧
    (getDicsT dicsInp0 ((derOrderOf dicsInp0 + 1) * 0) = some (dicsInp0.rhs 0) ∧
      getDicsT dicsInp0 (1 + (derOrderOf dicsInp0 + 1) * 0) =
        some (diff_dict
          (dget (getDicsT dicsInp0) (1 - 1 + (derOrderOf dicsInp0 + 1) * 0))
          (getDicsX dicsInp0) 1)) :=
  ⟨⟨by decide, by decide, by decide⟩,
    get_dics_recurrence dicsInp0 0 1 (by decide) (by decide) (by decide)⟩

/-- Modelled from the spec: optionally filter candidates whose derivative
order exceeds `max_der_order` (§4.7). -/
def candFilter (vo : ℕ → ℕ) (maxDer : Option ℕ) (cands : List (QPoly × QPoly)) :
    List (QPoly × QPoly) :=
  match maxDer with
  | none => cands
  | some b => cands.filter
      (fun c => getDiffOrder vo c.1 ≤ b && getDiffOrder vo c.2 ≤ b)

/-- Modelled from the spec: branch-and-bound search (§4.7) from the absent
`search_quad.py`: verify the current list; if quadratic, accept; if not and
the bound is reached, prune; otherwise propose candidate variable pairs and
recurse depth-first, accepting the first success and counting every visited
node.  `fuel` bounds the recursion depth of the embedding; failures return
`(none, [], nodes)`. -/
def bnbGo (bound : ℕ) (s : PDESysM) (maxDer : Option ℕ) :
    ℕ → List QPoly → Option (List QPoly) × List (VName × QForm) × ℕ
  | 0, _ => (none, [], 1)
  | fuel + 1, cur =>
    match tryMakeQuadratic (setNewVarsS s cur) with
    | .quad qs => (some cur, qs, 1)
    | .residues ns =>
      if bound ≤ cur.length then (none, [], 1)
      else
        let r := (candFilter s.varOrder maxDer (propNewVars ns cur)).foldl
          (fun acc c =>
            match acc.1 with
            | some _ => acc
            | none =>
              match bnbGo bound s maxDer fuel (cur ++ [c.1, c.2]) with
              | (some q, qs2, n2) => (some q, qs2, acc.2.2 + n2)
              | (none, _, n2) => (none, [], acc.2.2 + n2))
          (none, [], 0)
        (r.1, r.2.1, r.2.2 + 1)

/-- Modelled from the spec: greedy nearest-neighbor search (§4.8) — commit
unconditionally to the first proposed candidate, no backtracking; fail when
no candidates can be proposed. -/
def nearestNeighbor (s : PDESysM) : ℕ → List QPoly → Option (List QPoly) × ℕ
  | 0, _ => (none, 1)
  | fuel + 1, cur =>
    match tryMakeQuadratic (setNewVarsS s cur) with
    | .quad _ => (some cur, 1)
    | .residues ns =>
      match propNewVars ns cur with
      | [] => (none, 1)
      | c :: _ =>
        match nearestNeighbor s fuel (cur ++ [c.1, c.2]) with
        | (r, n) => (r, n + 1)

/-- The error kinds `quadratize` can raise (`ValueError`s of
quadratization.py). -/
inductive ErrKind where
  | emptyEqs | badSort | badBound | badAlg | badPrint
deriving DecidableEq

/-- Observable events of one `quadratize` call, in program order. -/
inductive Event where
  | buildSys | search | raised (e : ErrKind) | printed
deriving DecidableEq

/-- The value `quadratize` produces: a system, a system with node count, an
empty result (with or without node count) when no quadratization is found,
or a raised error. -/
inductive QuadOut where
  | sys (s : PDESysM)
  | sysNodes (s : PDESysM) (n : ℕ)
  | empty
  | emptyNodes (n : ℕ)
  | err (e : ErrKind)

/-- The option strings of `quadratize`. -/
def byFunName : VName := ['b', 'y', '_', 'f', 'u', 'n']

/-- `by_degree_order`. -/
def byDegreeOrderName : VName :=
  ['b', 'y', '_', 'd', 'e', 'g', 'r', 'e', 'e', '_', 'o', 'r', 'd', 'e', 'r']

/-- `by_order_degree`. -/
def byOrderDegreeName : VName :=
  ['b', 'y', '_', 'o', 'r', 'd', 'e', 'r', '_', 'd', 'e', 'g', 'r', 'e', 'e']

/-- The keys of `dic_sort_fun` (quadratization.py, lines 75-79). -/
def knownSorts : List VName := [byFunName, byDegreeOrderName, byOrderDegreeName]

/-- `"inn"`. -/
def innName : VName := ['i', 'n', 'n']

/-- `"bnb"`. -/
def bnbName : VName := ['b', 'n', 'b']

/-- `"pprint"`. -/
def pprintName : VName := ['p', 'p', 'r', 'i', 'n', 't']

/-- `"latex"`. -/
def latexName : VName := ['l', 'a', 't', 'e', 'x']

/-- `quadratize` (quadratization.py, lines 10-120) at the ring level, with
its event trace: validate the equation list, build the `PDESys`, validate
`sort_fun` against `dic_sort_fun`, validate `nvars_bound`, dispatch on
`search_alg` (raising on unknown names BEFORE searching), search, handle
the not-found case, register the found variables, and only then — after
the search — let `print_quad` validate the printing style. -/
def quadratizeModel (s : PDESysM) (sortFun : VName) (nvarsBound : ℕ)
    (maxDer : Option ℕ) (searchAlg : VName) (printing : VName)
    (showNodes : Bool) (fuel : ℕ) : QuadOut × List Event :=
  if s.pdeEq = [] then (.err .emptyEqs, [.raised .emptyEqs])
  else if sortFun ∉ knownSorts then
    (.err .badSort, [.buildSys, .raised .badSort])
  else if nvarsBound = 0 then
    (.err .badBound, [.buildSys, .raised .badBound])
  else if searchAlg ≠ innName ∧ searchAlg ≠ bnbName then
    (.err .badAlg, [.buildSys, .raised .badAlg])
  else
    let sr :=
      if searchAlg = innName then nearestNeighbor s fuel []
      else ((bnbGo nvarsBound s maxDer fuel []).1, (bnbGo nvarsBound s maxDer fuel []).2.2)
    match sr.1 with
    | none =>
      if showNodes then (.emptyNodes sr.2, [.buildSys, .search])
      else (.empty, [.buildSys, .search])
    | some vars =>
      let s2 := setNewVarsS s vars
      let s4 :=
        match tryMakeQuadratic s2 with
        | .quad qs => setQuadSysS (tmqState s2).1 qs
        | .residues _ => (tmqState s2).1
      if printing ≠ [] then
        if printing ≠ pprintName ∧ printing ≠ latexName then
          (.err .badPrint, [.buildSys, .search, .raised .badPrint])
        else if showNodes then (.sysNodes s4 sr.2, [.buildSys, .search, .printed])
        else (.sys s4, [.buildSys, .search, .printed])
      else if showNodes then (.sysNodes s4 sr.2, [.buildSys, .search])
      else (.sys s4, [.buildSys, .search])

/-- Whether the trace raises an error before any search event — "rejected
eagerly, before any search work begins". -/
def rejectedBeforeSearch : List Event → Bool
  | [] => false
  | .search :: _ => false
  | .raised _ :: _ => true
  | _ :: rest => rejectedBeforeSearch rest

theorem bnbFold_none_empty
    (g : QPoly × QPoly → Option (List QPoly) × List (VName × QForm) × ℕ) :
    ∀ (cands : List (QPoly × QPoly))
      (acc : Option (List QPoly) × List (VName × QForm) × ℕ),
      (acc.1 = none → acc.2.1 = []) →
      ((cands.foldl
          (fun acc c =>
            match acc.1 with
            | some _ => acc
            | none =>
              match g c with
              | (some q, qs2, n2) => (some q, qs2, acc.2.2 + n2)
              | (none, _, n2) => (none, [], acc.2.2 + n2))
          acc).1 = none →
        (cands.foldl
          (fun acc c =>
            match acc.1 with
            | some _ => acc
            | none =>
              match g c with
              | (some q, qs2, n2) => (some q, qs2, acc.2.2 + n2)
              | (none, _, n2) => (none, [], acc.2.2 + n2))
          acc).2.1 = []) := by
  intro cands
  induction cands with
  | nil => intro acc hacc h; exact hacc h
  | cons c cs ih =>
    intro acc hacc
    rw [List.foldl_cons]
    refine ih _ ?_
    intro h1
    cases hacc1 : acc.1 with
    | some q =>
      simp only [hacc1] at h1
      exact absurd h1 (by simp)
    | none =>
      simp only [hacc1] at h1 ⊢
      cases hg : g c with
      | mk o pr =>
        cases pr with
        | mk qs2 n2 =>
          cases o with
          | some q =>
            rw [hg] at h1
            exact Option.noConfusion h1
          | none => rfl

theorem bnbGo_succ (bound : ℕ) (s : PDESysM) (maxDer : Option ℕ) (fuel : ℕ)
    (cur : List QPoly) :
    bnbGo bound s maxDer (fuel + 1) cur =
      match tryMakeQuadratic (setNewVarsS s cur) with
      | .quad qs => (some cur, qs, 1)
      | .residues ns =>
        if bound ≤ cur.length then (none, [], 1)
        else
          let r := (candFilter s.varOrder maxDer (propNewVars ns cur)).foldl
            (fun acc c =>
              match acc.1 with
              | some _ => acc
              | none =>
                match bnbGo bound s maxDer fuel (cur ++ [c.1, c.2]) with
                | (some q, qs2, n2) => (some q, qs2, acc.2.2 + n2)
                | (none, _, n2) => (none, [], acc.2.2 + n2))
            (none, [], 0)
          (r.1, r.2.1, r.2.2 + 1) := rfl

/-- Claim C7: when no quadratization exists within the bound, `bnb` returns
the defined not-found result `(None, [], nodes)` with a positive node
count, and `quadratize` then returns the empty result — with the node
count when `show_nodes` is true — rather than raising. -/
theorem search_exhaustion_not_found :
    ∀ (bound : ℕ) (s : PDESysM) (maxDer : Option ℕ) (fuel : ℕ) (cur : List QPoly),
      ((bnbGo bound s maxDer fuel cur).1 = none →
        (bnbGo bound s maxDer fuel cur).2.1 = []) ∧
      0 < (bnbGo bound s maxDer fuel cur).2.2 ∧
      (s.pdeEq ≠ [] → 0 < bound →
        (bnbGo bound s maxDer fuel []).1 = none →
        (quadratizeModel s byFunName bound maxDer bnbName [] true fuel).1 =
          QuadOut.emptyNodes ((bnbGo bound s maxDer fuel []).2.2) ∧
        (quadratizeModel s byFunName bound maxDer bnbName [] false fuel).1 =
          QuadOut.empty) := by
  intro bound s maxDer fuel cur
  refine ⟨?_, ?_, ?_⟩
  · cases fuel with
    | zero => intro _; rfl
    | succ fuel =>
      intro h
      rw [bnbGo_succ] at h ⊢
      cases htm : tryMakeQuadratic (setNewVarsS s cur) with
      | quad qs =>
        rw [htm] at h
        simp at h
      | residues ns =>
        rw [htm] at h
        dsimp only at h ⊢
        by_cases hb : bound ≤ cur.length
        · rw [if_pos hb]
        · rw [if_neg hb] at h ⊢
          exact bnbFold_none_empty
            (fun c => bnbGo bound s maxDer fuel (cur ++ [c.1, c.2]))
            (candFilter s.varOrder maxDer (propNewVars ns cur))
            (none, [], 0) (fun _ => rfl) h
  · cases fuel with
    | zero => exact Nat.one_pos
    | succ fuel =>
      rw [bnbGo_succ]
      cases htm : tryMakeQuadratic (setNewVarsS s cur) with
      | quad qs => exact Nat.one_pos
      | residues ns =>
        dsimp only
        by_cases hb : bound ≤ cur.length
        · rw [if_pos hb]
          exact Nat.one_pos
        · rw [if_neg hb]
          exact Nat.succ_pos _
  · intro hne hbp hnone
    have hsort : ¬(byFunName ∉ knownSorts) := by decide
    have hbound : ¬(bound = 0) := by omega
    have halg : ¬(bnbName ≠ innName ∧ bnbName ≠ bnbName) := by decide
    have hinn : ¬(bnbName = innName) := by decide
    constructor
    · unfold quadratizeModel
      rw [if_neg hne, if_neg hsort, if_neg hbound, if_neg halg, if_neg hinn]
      dsimp only
      rw [hnone]
      rfl
    · unfold quadratizeModel
      rw [if_neg hne, if_neg hsort, if_neg hbound, if_neg halg, if_neg hinn]
      dsimp only
      rw [hnone]
      rfl

def sysDx3 : PDESysM where
  polyVarNames := [['u'], ['u', '_', 'x', '1']]
  pdeEq := [(['u', '_', 't'], [([0, 3], 1)])]
  fracRels := []
  newVars := []
  NSList := []
  quadSys := []
  dicT := fun i => if i = 0 then some [([0, 3], 1)] else none
  dicX := fun i => if i = 0 then some (varPoly 1) else none
  fracDerT := []
  varOrder := fun i => if i = 1 then 1 else 0
  order := 0

theorem search_exhaustion_not_found_witness :
    (bnbGo 1 sysDx3 (some 0) 3 []).2.1 = [] ∧
    0 < (bnbGo 1 sysDx3 (some 0) 3 []).2.2 ∧
    (quadratizeModel sysDx3 byFunName 1 (some 0) bnbName [] true 3).1 =
      QuadOut.emptyNodes ((bnbGo 1 sysDx3 (some 0) 3 []).2.2) ∧
    (quadratizeModel sysDx3 byFunName 1 (some 0) bnbName [] false 3).1 =
      QuadOut.empty := by
  obtain ⟨h1, h2, h3⟩ := search_exhaustion_not_found 1 sysDx3 (some 0) 3 []
  have hn : (bnbGo 1 sysDx3 (some 0) 3 []).1 = none := by decide
  obtain ⟨h4, h5⟩ := h3 (by decide) (by decide) hn
  exact ⟨h1 hn, h2, h4, h5⟩

/-- Counterexample to Claim C8: on the system u_t = u (found quadratic at
once) with the unknown printing style "zz", quadratize runs the whole
search first and only then print_quad raises on the bad printing string,
so the trace raises after the search event, not before it. -/
theorem print_validation_after_search :
    quadratizeModel sysUtoU byFunName 1 none bnbName ['z', 'z'] false 1 =
      (QuadOut.err ErrKind.badPrint,
        [Event.buildSys, Event.search, Event.raised ErrKind.badPrint]) ∧
    rejectedBeforeSearch
      (quadratizeModel sysUtoU byFunName 1 none bnbName ['z', 'z'] false 1).2 =
      false := by
  exact ⟨rfl, rfl⟩

/-- Claim C8 (amended): unknown sort_fun and search_alg strings are indeed
rejected eagerly, before any search event; but an unknown printing style is
validated only by print_quad, after the search completes — it raises after
the search event when a quadratization is found, and is never checked at
all when the search finds nothing. -/
theorem option_validation_order :
    ∀ (s : PDESysM) (sortFun : VName) (bound : ℕ) (maxDer : Option ℕ)
      (alg printing : VName) (showNodes : Bool) (fuel : ℕ),
      s.pdeEq ≠ [] →
      (sortFun ∉ knownSorts →
        (quadratizeModel s sortFun bound maxDer alg printing showNodes fuel).2 =
          [Event.buildSys, Event.raised ErrKind.badSort] ∧
        rejectedBeforeSearch
          (quadratizeModel s sortFun bound maxDer alg printing showNodes fuel).2 =
          true) ∧
      (sortFun ∈ knownSorts → bound ≠ 0 → alg ≠ innName → alg ≠ bnbName →
        (quadratizeModel s sortFun bound maxDer alg printing showNodes fuel).2 =
          [Event.buildSys, Event.raised ErrKind.badAlg] ∧
        rejectedBeforeSearch
          (quadratizeModel s sortFun bound maxDer alg printing showNodes fuel).2 =
          true) ∧
      (sortFun ∈ knownSorts → bound ≠ 0 →
        (bnbGo bound s maxDer fuel []).1 = none →
        ∀ e, Event.raised e ∉
          (quadratizeModel s sortFun bound maxDer bnbName printing showNodes fuel).2) ∧
      (sortFun ∈ knownSorts → bound ≠ 0 →
        ∀ vs, (bnbGo bound s maxDer fuel []).1 = some vs →
          printing ≠ [] → printing ≠ pprintName → printing ≠ latexName →
          (quadratizeModel s sortFun bound maxDer bnbName printing showNodes fuel).2 =
            [Event.buildSys, Event.search, Event.raised ErrKind.badPrint] ∧
          rejectedBeforeSearch
            (quadratizeModel s sortFun bound maxDer bnbName printing showNodes fuel).2 =
            false) := by
  intro s sortFun bound maxDer alg printing showNodes fuel hne
  refine ⟨?_, ?_, ?_, ?_⟩
  · intro hsort
    unfold quadratizeModel
    rw [if_neg hne, if_pos hsort]
    exact ⟨rfl, rfl⟩
  · intro hsort hbound halg1 halg2
    unfold quadratizeModel
    rw [if_neg hne, if_neg (not_not_intro hsort), if_neg hbound,
      if_pos (And.intro halg1 halg2)]
    exact ⟨rfl, rfl⟩
  · intro hsort hbound hnone e
    unfold quadratizeModel
    rw [if_neg hne, if_neg (not_not_intro hsort), if_neg hbound,
      if_neg (show ¬(bnbName ≠ innName ∧ bnbName ≠ bnbName) from by decide),
      if_neg (show ¬(bnbName = innName) from by decide)]
    dsimp only
    rw [hnone]
    cases showNodes <;> simp
  · intro hsort hbound vs hsome hp0 hp1 hp2
    unfold quadratizeModel
    rw [if_neg hne, if_neg (not_not_intro hsort), if_neg hbound,
      if_neg (show ¬(bnbName ≠ innName ∧ bnbName ≠ bnbName) from by decide),
      if_neg (show ¬(bnbName = innName) from by decide)]
    dsimp only
    rw [hsome]
    dsimp only
    rw [if_pos hp0, if_pos (And.intro hp1 hp2)]
    exact ⟨rfl, rfl⟩

theorem option_validation_order_witness :
    (quadratizeModel sysUtoU ['z'] 1 none bnbName [] false 1).2 =
      [Event.buildSys, Event.raised ErrKind.badSort] ∧
    (quadratizeModel sysUtoU byFunName 1 none ['z'] [] false 1).2 =
      [Event.buildSys, Event.raised ErrKind.badAlg] ∧
    Event.raised ErrKind.badPrint ∉
      (quadratizeModel sysDx3 byFunName 1 (some 0) bnbName ['z', 'z'] true 3).2 ∧
    (quadratizeModel sysUtoU byFunName 1 none bnbName ['z', 'z'] false 1).2 =
      [Event.buildSys, Event.search, Event.raised ErrKind.badPrint] := by
  refine ⟨?_, ?_, ?_, ?_⟩
  · exact ((option_validation_order sysUtoU ['z'] 1 none bnbName [] false 1
      (by decide)).1 (by decide)).1
  · exact ((option_validation_order sysUtoU byFunName 1 none ['z'] [] false 1
      (by decide)).2.1 (by decide) (by decide) (by decide) (by decide)).1
  · exact (option_validation_order sysDx3 byFunName 1 (some 0) bnbName
      ['z', 'z'] true 3 (by decide)).2.2.1 (by decide) (by decide)
      (by decide) ErrKind.badPrint
  · exact ((option_validation_order sysUtoU byFunName 1 none bnbName
      ['z', 'z'] false 1 (by decide)).2.2.2 (by decide) (by decide) []
      (by decide) (by decide) (by decide) (by decide)).1
